import Mathlib

/-!
Shallow embedding of `templatetag_sugar/parser.py`: a recursive-descent
parser-combinator engine matching the argument tokens of a template tag
against a declared grammar.

The Python code mutates a `deque` in place and uses raised exceptions for
control flow.  The embedding passes the token queue explicitly: every
matcher returns the result (or the raised error) together with the queue
state at the moment control leaves the matcher, which is exactly the state
the mutated deque has in Python.  Because `Sequence.parse` can genuinely
loop forever, the interpreter carries a step-count fuel argument; `none`
means the computation did not finish within the given fuel.
-/

namespace Sugar

/-- The exception classes that can cross matcher boundaries:
`TemplateSyntaxError` (with its optional message), `IndexError`
(raised by `deque.popleft` on an empty deque), `ValueError` (raised by
unpacking `bit.split(".")` into two names), and the registry's
not-found error (modelled from the spec's entity-registry collaborator). -/
inductive PError where
  | tse : Option String → PError
  | indexError : PError
  | valueError : PError
  | lookupError : PError
deriving DecidableEq, Repr

/-- The exception classes caught by `Optional.parse` and `Sequence.parse`:
`except (TemplateSyntaxError, IndexError)`. -/
def PError.isSoft : PError → Bool
  | .tse _ => true
  | .indexError => true
  | _ => false

/-- The message carried by an exception (`none` for a bare
`TemplateSyntaxError()` and for the classes raised without a message). -/
def PError.msgOf : PError → Option String
  | .tse m => m
  | _ => none

/-- A captured value: a compiled filter expression (from
`parser.compile_filter`), a raw token, a resolved model object, a list of
values (from `Sequence`), or a `(keyword, values)` pair (from `Choice`).
Expression handles and model objects are opaque host objects; they are
carried as the string the host returned for them. -/
inductive Val where
  | filt : String → Val
  | raw : String → Val
  | entity : String → Val
  | list : List Val → Val
  | keyed : String → List Val → Val

/-- The grammar nodes of `parser.py`: `Constant`, `Variable` (here `var`,
since `variable` is a Lean keyword), `Name`, `Optional`, `Sequence`,
`Choice` and `Model`.  `Choice`'s dict is an association list in
insertion order. -/
inductive Node where
  | constant : String → Node
  | var : Option String → Node
  | name : Option String → Node
  | optional : List Node → Node
  | sequence : Node → Option String → Node
  | choice : List (String × List Node) → Option String → Node
  | model : Option String → Node

/-- One `(self, self.name, value)` triple as returned by the `parse`
methods. -/
structure Capture where
  owner : Node
  cname : Option String
  value : Val

/-- The host collaborators (spec section 6): the expression compiler
`parser.compile_filter` and the entity registry `cache.get_model`; either
may fail with an error the engine propagates unchanged. -/
structure Host where
  compile_filter : String → Except PError String
  get_model : String → String → Except PError String

/-- Python's `s.split(sep)` for a one-character separator, on the
character list: splitting never drops empty pieces and the empty string
splits to `[""]`. -/
def splitChars (sep : Char) : List Char → List String
  | [] => [""]
  | c :: cs =>
    if c = sep then "" :: splitChars sep cs
    else
      match splitChars sep cs with
      | [] => [String.mk [c]]
      | r :: rs => String.mk (c :: r.data) :: rs

/-- `bit.split(".")` from `Model.parse`. -/
def splitDot (s : String) : List String :=
  splitChars '.' s.data

/-- `bits[0] in self.mapping` / `self.mapping[key]` on the association
list (dict keys are unique, so first match is the dict lookup). -/
def lookupA (k : String) : List (String × List Node) → Option (List Node)
  | [] => none
  | (k', v) :: rest => if k = k' then some v else lookupA k rest

/-- `if val is None: continue` / `result.extend(val)`: the captures an
element contributed. -/
def capList : Option (List Capture) → List Capture
  | none => []
  | some caps => caps

/-- `result.extend(x[2] for x in val)`: the captured values an element
contributed, names discarded. -/
def capVals (v : Option (List Capture)) : List Val :=
  (capList v).map Capture.value

/-- `" | ".join(key for key in self.mapping)`. -/
def keysBar : List (String × List Node) → String
  | [] => ""
  | [(k, _)] => k
  | (k, _) :: rest => k ++ " | " ++ keysBar rest

abbrev Queue := List String

/-- A `parse` call's outcome: the raised error, or the returned value
(`none` is Python's `None`, `some caps` a capture list). -/
abbrev PResult := Except PError (Option (List Capture))

mutual

/-- The `parse` methods of `parser.py`, one case per class.  The returned
queue is the deque's state when control leaves the method — also when an
exception is raised, since the Python deque is mutated in place.  The
first argument is fuel: `none` means the computation was cut off (only
`Sequence`'s `while True` loop can actually run unboundedly). -/
def parse : Nat → Host → Node → Queue → Option (PResult × Queue)
  | 0, _, _, _ => none
  | f + 1, h, n, bits =>
    match n with
    | .constant t =>
      -- Constant.parse: `if not bits: raise`; `if bits[0] == self.text: popleft`
      match bits with
      | [] => some (.error (.tse none), [])
      | b :: rest =>
        if b = t then some (.ok none, rest)
        else some (.error (.tse (some (t ++ " expected, " ++ b ++ " found"))), b :: rest)
    | .var nm =>
      -- Variable.parse: popleft (IndexError on empty), then compile_filter
      match bits with
      | [] => some (.error .indexError, [])
      | b :: rest =>
        match h.compile_filter b with
        | .error e => some (.error e, rest)
        | .ok fe => some (.ok (some [⟨.var nm, nm, .filt fe⟩]), rest)
    | .name nm =>
      -- Name.parse: popleft (IndexError on empty), capture the raw token
      match bits with
      | [] => some (.error .indexError, [])
      | b :: rest => some (.ok (some [⟨.name nm, nm, .raw b⟩]), rest)
    | .model nm =>
      -- Model.parse: popleft, `app, model = bit.split(".")` (ValueError
      -- unless exactly two pieces), then the registry lookup
      match bits with
      | [] => some (.error .indexError, [])
      | b :: rest =>
        match splitDot b with
        | [app, mdl] =>
          match h.get_model app mdl with
          | .error e => some (.error e, rest)
          | .ok ent => some (.ok (some [⟨.model nm, nm, .entity ent⟩]), rest)
        | _ => some (.error .valueError, rest)
    | .optional ps =>
      -- Optional.parse: run the parts against a copy; a caught soft error
      -- returns None with the real queue untouched; an uncaught error
      -- propagates, the real queue also untouched; on success pop
      -- `len(bits) - len(bits_copy)` tokens off the real queue
      match parseList f h ps bits with
      | none => none
      | some (.error e, _) =>
        if e.isSoft then some (.ok none, bits) else some (.error e, bits)
      | some (.ok caps, cur) =>
        some (.ok (some caps), bits.drop (bits.length - cur.length))
    | .sequence part nm =>
      -- Sequence.parse: `while True` repeat of the part against the real
      -- queue, then one capture holding the accumulated value list
      match seqLoop f h part bits with
      | none => none
      | some (.error e, q) => some (.error e, q)
      | some (.ok vals, q) =>
        some (.ok (some [⟨.sequence part nm, nm, .list vals⟩]), q)
    | .choice m nm =>
      -- Choice.parse: bare raise on empty queue; keyword dispatch; the
      -- matched branch runs against the real queue with nothing caught,
      -- its captures' values collected into a (key, values) capture
      match bits with
      | [] => some (.error (.tse none), [])
      | b :: rest =>
        match lookupA b m with
        | some branch =>
          match parseList f h branch rest with
          | none => none
          | some (.error e, q) => some (.error e, q)
          | some (.ok caps, q) =>
            some (.ok (some [⟨.choice m nm, nm, .keyed b (caps.map Capture.value)⟩]), q)
        | none =>
          some (.error (.tse (some ("[" ++ keysBar m ++ "] expected, " ++ b ++ " found"))), b :: rest)

/-- The element loop shared by `Optional.parse`, a `Choice` branch and
`Parser.__call__`: run each part in order, skip `None` results, extend
the capture list, stop at the first raised error (`Choice` and the
top-level caller re-project the values out of the captures). -/
def parseList : Nat → Host → List Node → Queue → Option (Except PError (List Capture) × Queue)
  | 0, _, _, _ => none
  | f + 1, h, ps, bits =>
    match ps with
    | [] => some (.ok [], bits)
    | p :: rest =>
      match parse f h p bits with
      | none => none
      | some (.error e, q) => some (.error e, q)
      | some (.ok v, q) =>
        match parseList f h rest q with
        | none => none
        | some (.error e, q2) => some (.error e, q2)
        | some (.ok caps, q2) => some (.ok (capList v ++ caps), q2)

/-- `Sequence.parse`'s `while True` loop: repeat the part against the
real queue, collecting values; a caught soft error breaks the loop with
whatever the failed attempt left on the queue; other errors propagate. -/
def seqLoop : Nat → Host → Node → Queue → Option (Except PError (List Val) × Queue)
  | 0, _, _, _ => none
  | f + 1, h, part, bits =>
    match parse f h part bits with
    | none => none
    | some (.error e, q) =>
      if e.isSoft then some (.ok [], q) else some (.error e, q)
    | some (.ok v, q) =>
      match seqLoop f h part q with
      | none => none
      | some (.error e, q2) => some (.error e, q2)
      | some (.ok vals, q2) => some (.ok (capVals v ++ vals), q2)

end

mutual

/-- `syntax()` of each grammar node class. -/
def synStr : Node → String
  | .constant t => t
  | .var nm => match nm with | some s => "<" ++ s ++ ">" | none => "<arg>"
  | .name nm => match nm with | some s => "<" ++ s ++ ">" | none => "<arg>"
  | .model nm => match nm with | some s => "<" ++ s ++ ">" | none => "<arg>"
  | .optional ps => "[" ++ synList ps ++ "]"
  | .sequence part _ => "[" ++ synStr part ++ "]..."
  | .choice m _ => synChoice m

/-- `" ".join(part.syntax() for part in parts)`. -/
def synList : List Node → String
  | [] => ""
  | [p] => synStr p
  | p :: ps => synStr p ++ " " ++ synList ps

/-- `Choice.syntax`: `" | ".join("%s %s" % (key, " ".join(...)))`. -/
def synChoice : List (String × List Node) → String
  | [] => ""
  | [(k, ps)] => k ++ " " ++ synList ps
  | (k, ps) :: rest => k ++ " " ++ synList ps ++ " | " ++ synChoice rest

end

/-- Modelled from the spec: the Executable Node (`SugarNode` lives in
`templatetag_sugar/node.py`, which is not under `src/`).  Per the spec it
owns the Capture Set produced by one successful compilation (the handler
reference is an opaque host value and is omitted).  The claims only need
that a node is produced exactly on successful compilation. -/
structure SugarNode where
  pieces : List Capture

/-- `"{%% %s %s %%}"`: the usage fragment of the syntax-error message,
the `syntax()` of every top-level element joined by spaces and wrapped
as `{% tagname ... %}`. -/
def usageCore (tagName : String) (parts : List Node) : String :=
  "\x7b% " ++ tagName ++ " " ++ synList parts ++ " %\x7d"

/-- The full `Parser.__call__` leftover-tokens message:
`"%s has the following syntax: {%% %s %s %%}"`. -/
def usageMsg (tagName : String) (parts : List Node) : String :=
  tagName ++ " has the following syntax: " ++ usageCore tagName parts

/-- `Parser.__call__`: pop the tag name, run every top-level node in
order, fail with the usage message if tokens are left over, otherwise
build the `SugarNode`. -/
def tagCall (f : Nat) (h : Host) (parts : List Node) (tokens : List String) :
    Option (Except PError SugarNode) :=
  match tokens with
  | [] => some (.error .indexError)
  | tagName :: bits =>
    match parseList f h parts bits with
    | none => none
    | some (.error e, _) => some (.error e)
    | some (.ok pieces, rest) =>
      match rest with
      | [] => some (.ok ⟨pieces⟩)
      | _ :: _ => some (.error (.tse (some (usageMsg tagName parts))))

/-- A concrete host for witnesses: the expression compiler succeeds on
everything except the marked token, and the registry knows every model
except `Missing`. -/
def demoHost : Host where
  compile_filter := fun s =>
    if s = "%!bad" then .error (.tse (some "bad filter")) else .ok s
  get_model := fun app mdl =>
    if mdl = "Missing" then .error .lookupError else .ok (app ++ "." ++ mdl)

example : splitDot "app.Missing" = ["app", "Missing"] := by decide
example : splitDot "nodot" = ["nodot"] := by decide
example : splitDot "a..b" = ["a", "", "b"] := by decide

example : parse 1 demoHost (.constant "x") ["x", "y"] = some (.ok none, ["y"]) := rfl

example :
    parse 3 demoHost (.choice [("k", [.constant "x"])] none) ["k", "y"]
      = some (.error (.tse (some "x expected, y found")), ["y"]) := rfl

/-- Every matcher only pops tokens off the front of the queue, so the
queue state it leaves behind — on success or on a raised error — is a
suffix of the queue it was given.  Joint statement over the three mutual
functions, by induction on fuel. -/
theorem step_suffix (f : Nat) :
    (∀ h n bits r q, parse f h n bits = some (r, q) → q <:+ bits) ∧
    (∀ h ps bits r q, parseList f h ps bits = some (r, q) → q <:+ bits) ∧
    (∀ h p bits r q, seqLoop f h p bits = some (r, q) → q <:+ bits) := by
  induction f with
  | zero =>
    refine ⟨?_, ?_, ?_⟩ <;> intro h x bits r q hq <;>
      simp [parse, parseList, seqLoop] at hq
  | succ f ih =>
    obtain ⟨ihP, ihL, ihS⟩ := ih
    refine ⟨?_, ?_, ?_⟩
    · intro h n bits r q hq
      cases n with
      | constant t =>
        cases bits with
        | nil =>
          simp only [parse, Option.some.injEq, Prod.mk.injEq] at hq
          obtain ⟨-, rfl⟩ := hq
          exact List.suffix_refl _
        | cons b rest =>
          simp only [parse] at hq
          split at hq <;>
            simp only [Option.some.injEq, Prod.mk.injEq] at hq <;>
            obtain ⟨-, rfl⟩ := hq
          · exact List.suffix_cons b rest
          · exact List.suffix_refl _
      | var nm =>
        cases bits with
        | nil =>
          simp only [parse, Option.some.injEq, Prod.mk.injEq] at hq
          obtain ⟨-, rfl⟩ := hq
          exact List.suffix_refl _
        | cons b rest =>
          simp only [parse] at hq
          split at hq <;>
            simp only [Option.some.injEq, Prod.mk.injEq] at hq <;>
            obtain ⟨-, rfl⟩ := hq <;> exact List.suffix_cons b rest
      | name nm =>
        cases bits with
        | nil =>
          simp only [parse, Option.some.injEq, Prod.mk.injEq] at hq
          obtain ⟨-, rfl⟩ := hq
          exact List.suffix_refl _
        | cons b rest =>
          simp only [parse, Option.some.injEq, Prod.mk.injEq] at hq
          obtain ⟨-, rfl⟩ := hq
          exact List.suffix_cons b rest
      | model nm =>
        cases bits with
        | nil =>
          simp only [parse, Option.some.injEq, Prod.mk.injEq] at hq
          obtain ⟨-, rfl⟩ := hq
          exact List.suffix_refl _
        | cons b rest =>
          simp only [parse] at hq
          split at hq
          · split at hq <;>
              simp only [Option.some.injEq, Prod.mk.injEq] at hq <;>
              obtain ⟨-, rfl⟩ := hq <;> exact List.suffix_cons b rest
          · simp only [Option.some.injEq, Prod.mk.injEq] at hq
            obtain ⟨-, rfl⟩ := hq
            exact List.suffix_cons b rest
      | optional ps =>
        simp only [parse] at hq
        split at hq
        · exact absurd hq (by simp)
        · split at hq <;> simp only [Option.some.injEq, Prod.mk.injEq] at hq <;>
            obtain ⟨-, rfl⟩ := hq <;> exact List.suffix_refl _
        · simp only [Option.some.injEq, Prod.mk.injEq] at hq
          obtain ⟨-, rfl⟩ := hq
          exact List.drop_suffix _ _
      | sequence part nm =>
        simp only [parse] at hq
        split at hq
        · exact absurd hq (by simp)
        case h_2 e q1 heq =>
          simp only [Option.some.injEq, Prod.mk.injEq] at hq
          obtain ⟨-, rfl⟩ := hq
          exact ihS h part bits _ _ heq
        case h_3 vals q1 heq =>
          simp only [Option.some.injEq, Prod.mk.injEq] at hq
          obtain ⟨-, rfl⟩ := hq
          exact ihS h part bits _ _ heq
      | choice m nm =>
        cases bits with
        | nil =>
          simp only [parse, Option.some.injEq, Prod.mk.injEq] at hq
          obtain ⟨-, rfl⟩ := hq
          exact List.suffix_refl _
        | cons b rest =>
          simp only [parse] at hq
          split at hq
          case h_1 branch hk =>
            split at hq
            · exact absurd hq (by simp)
            case h_2 e q1 heq =>
              simp only [Option.some.injEq, Prod.mk.injEq] at hq
              obtain ⟨-, rfl⟩ := hq
              exact (ihL h branch rest _ _ heq).trans (List.suffix_cons b rest)
            case h_3 caps q1 heq =>
              simp only [Option.some.injEq, Prod.mk.injEq] at hq
              obtain ⟨-, rfl⟩ := hq
              exact (ihL h branch rest _ _ heq).trans (List.suffix_cons b rest)
          · simp only [Option.some.injEq, Prod.mk.injEq] at hq
            obtain ⟨-, rfl⟩ := hq
            exact List.suffix_refl _
    · intro h ps bits r q hq
      cases ps with
      | nil =>
        simp only [parseList, Option.some.injEq, Prod.mk.injEq] at hq
        obtain ⟨-, rfl⟩ := hq
        exact List.suffix_refl _
      | cons p rest =>
        simp only [parseList] at hq
        split at hq
        · exact absurd hq (by simp)
        case h_2 e q1 hp =>
          simp only [Option.some.injEq, Prod.mk.injEq] at hq
          obtain ⟨-, rfl⟩ := hq
          exact ihP h p bits _ _ hp
        case h_3 v q1 hp =>
          split at hq
          · exact absurd hq (by simp)
          case h_2 e2 q2 hl =>
            simp only [Option.some.injEq, Prod.mk.injEq] at hq
            obtain ⟨-, rfl⟩ := hq
            exact (ihL h rest q1 _ _ hl).trans (ihP h p bits _ _ hp)
          case h_3 caps q2 hl =>
            simp only [Option.some.injEq, Prod.mk.injEq] at hq
            obtain ⟨-, rfl⟩ := hq
            exact (ihL h rest q1 _ _ hl).trans (ihP h p bits _ _ hp)
    · intro h p bits r q hq
      simp only [seqLoop] at hq
      split at hq
      · exact absurd hq (by simp)
      case h_2 e q1 hp =>
        split at hq <;> simp only [Option.some.injEq, Prod.mk.injEq] at hq <;>
          obtain ⟨-, rfl⟩ := hq <;> exact ihP h p bits _ _ hp
      case h_3 v q1 hp =>
        split at hq
        · exact absurd hq (by simp)
        case h_2 e2 q2 hl =>
          simp only [Option.some.injEq, Prod.mk.injEq] at hq
          obtain ⟨-, rfl⟩ := hq
          exact (ihS h p q1 _ _ hl).trans (ihP h p bits _ _ hp)
        case h_3 vals q2 hl =>
          simp only [Option.some.injEq, Prod.mk.injEq] at hq
          obtain ⟨-, rfl⟩ := hq
          exact (ihS h p q1 _ _ hl).trans (ihP h p bits _ _ hp)

/-- Projection of `step_suffix` for `parse`. -/
theorem parse_suffix {f : Nat} {h : Host} {n : Node} {bits : Queue}
    {r : PResult} {q : Queue} (hq : parse f h n bits = some (r, q)) :
    q <:+ bits :=
  (step_suffix f).1 h n bits r q hq

/-- Projection of `step_suffix` for `parseList`. -/
theorem parseList_suffix {f : Nat} {h : Host} {ps : List Node} {bits : Queue}
    {r : Except PError (List Capture)} {q : Queue}
    (hq : parseList f h ps bits = some (r, q)) :
    q <:+ bits :=
  (step_suffix f).2.1 h ps bits r q hq

/-- A suffix is recovered by dropping the length difference: this is the
`for _ in xrange(diff): bits.popleft()` replay of `Optional.parse`. -/
theorem drop_diff_eq {cur bits : Queue} (hs : cur <:+ bits) :
    bits.drop (bits.length - cur.length) = cur := by
  obtain ⟨t, rfl⟩ := hs
  have : (t ++ cur).length - cur.length = t.length := by
    simp [List.length_append]
  rw [this, List.drop_left]

/-- Projection of `step_suffix` for `seqLoop`. -/
theorem seqLoop_suffix {f : Nat} {h : Host} {p : Node} {bits : Queue}
    {r : Except PError (List Val)} {q : Queue}
    (hq : seqLoop f h p bits = some (r, q)) :
    q <:+ bits :=
  (step_suffix f).2.2 h p bits r q hq

/-- `Sequence.parse` catches every soft error its part raises, so an
error that escapes the repeat loop is never soft. -/
theorem seqLoop_no_soft (f : Nat) :
    ∀ h p bits e q, seqLoop f h p bits = some (.error e, q) →
      e.isSoft = false := by
  induction f with
  | zero => intro h p bits e q hq; simp [seqLoop] at hq
  | succ f ih =>
    intro h p bits e q hq
    simp only [seqLoop] at hq
    split at hq
    · exact absurd hq (by simp)
    case h_2 e1 q1 hp =>
      split at hq
      · exact absurd hq (by simp)
      next hns =>
        simp only [Option.some.injEq, Prod.mk.injEq, Except.error.injEq] at hq
        obtain ⟨rfl, -⟩ := hq
        simpa using hns
    case h_3 v q1 hp =>
      split at hq
      · exact absurd hq (by simp)
      case h_2 e2 q2 hl =>
        simp only [Option.some.injEq, Prod.mk.injEq, Except.error.injEq] at hq
        obtain ⟨rfl, -⟩ := hq
        exact ih h p q1 e2 q2 hl
      case h_3 vals q2 hl => exact absurd hq (by simp)

/-- `Constant.parse` always finishes in one step. -/
theorem const_total (t : String) (h : Host) :
    ∀ bits g, 1 ≤ g → parse g h (.constant t) bits ≠ none := by
  intro bits g hg
  cases g with
  | zero => exact absurd hg (by omega)
  | succ g =>
    cases bits with
    | nil => simp [parse]
    | cons b rest => simp only [parse]; split <;> simp

/-- A successful `Constant.parse` pops exactly one token. -/
theorem const_consumes (t : String) (h : Host) :
    ∀ g bits v q, parse g h (.constant t) bits = some (.ok v, q) →
      q.length < bits.length := by
  intro g bits v q hq
  cases g with
  | zero => simp [parse] at hq
  | succ g =>
    cases bits with
    | nil => exact absurd hq (by simp [parse])
    | cons b rest =>
      simp only [parse] at hq
      split at hq
      · simp only [Option.some.injEq, Prod.mk.injEq] at hq
        obtain ⟨-, rfl⟩ := hq
        simp only [List.length_cons]
        omega
      · exact absurd hq (by simp)

/-- C4: if any sub-element of an `Optional`'s wrapped sub-sequence fails
with a parse failure or a queue-exhausted error (a soft error), the
`Optional`'s match returns no captures (`None`), does not raise, and
leaves the real queue exactly as it was before the attempt. -/
theorem optional_soft_fail_frame (f : Nat) (h : Host) (ps : List Node)
    (bits q0 : Queue) (e : PError)
    (hfail : parseList f h ps bits = some (.error e, q0))
    (hsoft : e.isSoft = true) :
    parse (f + 1) h (.optional ps) bits = some (.ok none, bits) := by
  simp [parse, hfail, hsoft]

/-- Witness for C4: `Optional([Constant("as"), Name("alias")])` on the
queue `["y"]` fails at the constant, returns `None` and leaves the queue
untouched. -/
theorem optional_soft_fail_frame_w :
    parse 3 demoHost (.optional [.constant "as", .name (some "alias")]) ["y"]
      = some (.ok none, ["y"]) :=
  optional_soft_fail_frame 2 demoHost [.constant "as", .name (some "alias")]
    ["y"] ["y"] (.tse (some "as expected, y found")) (by rfl) (by rfl)

/-- C5: when the full wrapped sub-sequence of an `Optional` succeeds
against the snapshot copy, the match returns all the captures produced by
the sub-sequence and advances the real queue by exactly the number of
tokens consumed on the snapshot, so the real queue ends equal to the
snapshot's final state. -/
theorem optional_success_replay (f : Nat) (h : Host) (ps : List Node)
    (bits cur : Queue) (caps : List Capture)
    (hok : parseList f h ps bits = some (.ok caps, cur)) :
    parse (f + 1) h (.optional ps) bits = some (.ok (some caps), cur) ∧
    bits.drop (bits.length - cur.length) = cur := by
  have hdrop := drop_diff_eq (parseList_suffix hok)
  exact ⟨by simp [parse, hok, hdrop], hdrop⟩

/-- Witness for C5: `Optional([Constant("as"), Name("alias")])` on
`["as", "y", "z"]` captures `alias = "y"` and pops two tokens off the
real queue. -/
theorem optional_success_replay_w :
    parse 4 demoHost (.optional [.constant "as", .name (some "alias")])
        ["as", "y", "z"]
      = some (.ok (some [⟨.name (some "alias"), some "alias", .raw "y"⟩]), ["z"]) ∧
    (["as", "y", "z"] : Queue).drop
        ((["as", "y", "z"] : Queue).length - (["z"] : Queue).length) = ["z"] :=
  optional_success_replay 3 demoHost [.constant "as", .name (some "alias")]
    ["as", "y", "z"] ["z"] [⟨.name (some "alias"), some "alias", .raw "y"⟩] (by rfl)

/-- C6: when a `Choice`'s front token is one of its declared keywords, the
match consumes the keyword and runs the matched branch in order against
the real queue with no rollback: an error partway through the branch
propagates as a raised error (never as a soft no-match `None`), and on
success the match returns exactly one capture, named per the `Choice`'s
own label, holding the pair of the matched keyword and the branch's
captured values in order with names discarded. -/
theorem choice_committed (f : Nat) (h : Host) (m : List (String × List Node))
    (nm : Option String) (b : String) (rest : Queue) (branch : List Node)
    (hlk : lookupA b m = some branch) :
    (∀ e q, parseList f h branch rest = some (.error e, q) →
      parse (f + 1) h (.choice m nm) (b :: rest) = some (.error e, q)) ∧
    (∀ caps q, parseList f h branch rest = some (.ok caps, q) →
      parse (f + 1) h (.choice m nm) (b :: rest)
        = some (.ok (some [⟨.choice m nm, nm,
            .keyed b (caps.map Capture.value)⟩]), q)) := by
  constructor
  · intro e q hb; simp [parse, hlk, hb]
  · intro caps q hb; simp [parse, hlk, hb]

/-- Witness for C6: on `["desc", "price"]` the choice between `asc` and
`desc` branches captures `("desc", ["price"])`; on `["asc"]` the
committed branch's queue-exhausted failure propagates as an error. -/
theorem choice_committed_w :
    parse 3 demoHost
        (.choice [("asc", [.name (some "field")]), ("desc", [.name (some "field")])]
          (some "order")) ["desc", "price"]
      = some (.ok (some [⟨.choice [("asc", [.name (some "field")]),
            ("desc", [.name (some "field")])] (some "order"), some "order",
            .keyed "desc" [.raw "price"]⟩]), []) ∧
    parse 3 demoHost
        (.choice [("asc", [.name (some "field")]), ("desc", [.name (some "field")])]
          (some "order")) ["asc"]
      = some (.error .indexError, []) :=
  ⟨(choice_committed 2 demoHost
      [("asc", [.name (some "field")]), ("desc", [.name (some "field")])]
      (some "order") "desc" ["price"] [.name (some "field")] (by rfl)).2
      [⟨.name (some "field"), some "field", .raw "price"⟩] [] (by rfl),
   (choice_committed 2 demoHost
      [("asc", [.name (some "field")]), ("desc", [.name (some "field")])]
      (some "order") "asc" [] [.name (some "field")] (by rfl)).1
      .indexError [] (by rfl)⟩

/-- Counterexample for C7: on an empty queue `Choice.parse` raises a bare
`TemplateSyntaxError` carrying no message at all, so the raised error's
message does not enumerate the valid keywords in that failure case. -/
theorem choice_empty_queue_no_message_cex :
    parse 1 demoHost
        (.choice [("asc", [Node.name (some "field")]),
          ("desc", [Node.name (some "field")])] (some "order")) []
      = some (.error (.tse none), []) ∧ (PError.tse none).msgOf = none :=
  ⟨rfl, rfl⟩

/-- C7 amended: a `Choice`'s keyword dispatch fails exactly when the
queue is empty or the front token is not one of the declared keywords;
for a non-keyword front token the message enumerates the valid keywords,
while on an empty queue the raised error carries no message; when the
front token is a declared keyword and the committed branch succeeds, the
match succeeds. -/
theorem choice_dispatch_failure (f : Nat) (h : Host)
    (m : List (String × List Node)) (nm : Option String) :
    (parse (f + 1) h (.choice m nm) [] = some (.error (.tse none), []) ∧
      (PError.tse none).msgOf = none) ∧
    (∀ b rest, lookupA b m = none →
      parse (f + 1) h (.choice m nm) (b :: rest)
        = some (.error (.tse (some
            ("[" ++ keysBar m ++ "] expected, " ++ b ++ " found"))), b :: rest)) ∧
    (∀ b rest branch caps q, lookupA b m = some branch →
      parseList f h branch rest = some (.ok caps, q) →
      parse (f + 1) h (.choice m nm) (b :: rest)
        = some (.ok (some [⟨.choice m nm, nm,
            .keyed b (caps.map Capture.value)⟩]), q)) := by
  refine ⟨⟨by simp [parse], rfl⟩, ?_, ?_⟩
  · intro b rest hlk; simp [parse, hlk]
  · intro b rest branch caps q hlk hb; simp [parse, hlk, hb]

/-- Witness for C7's amended claim: an unknown front token fails with the
keyword-enumerating message and no consumption; a known keyword with a
succeeding branch succeeds. -/
theorem choice_dispatch_failure_w :
    parse 1 demoHost (.choice [("asc", []), ("desc", [])] none) ["bogus"]
      = some (.error (.tse (some "[asc | desc] expected, bogus found")), ["bogus"]) ∧
    parse 2 demoHost (.choice [("asc", []), ("desc", [])] none) ["asc"]
      = some (.ok (some [⟨.choice [("asc", []), ("desc", [])] none, none,
          .keyed "asc" []⟩]), []) :=
  ⟨(choice_dispatch_failure 0 demoHost [("asc", []), ("desc", [])] none).2.1
      "bogus" [] (by rfl),
   (choice_dispatch_failure 1 demoHost [("asc", []), ("desc", [])] none).2.2
      "asc" [] [] [] [] (by rfl) (by rfl)⟩

/-- Counterexample for C8: `Sequence`'s match can fail: a `ValueError`
raised by the wrapped `Model` element on a separator-less token escapes
the repeat loop and the whole `Sequence.parse` raises. -/
theorem sequence_hard_failure_cex :
    parse 3 demoHost (.sequence (.model none) none) ["nodot"]
      = some (.error .valueError, []) := rfl

/-- C8 amended: `Sequence`'s match never raises a soft parse failure of
its own: any error escaping the repeat loop is non-soft; when the loop
stops (the sub-element failed softly) the match returns exactly one
capture, named per the `Sequence`'s own label, holding the accumulated
list of captured values flattened with names discarded (possibly empty,
zero repetitions being a valid match); a soft failure of the sub-element
stops the loop with no contribution. -/
theorem sequence_no_own_failure (f : Nat) (h : Host) (part : Node)
    (nm : Option String) (bits : Queue) :
    (∀ e q, seqLoop f h part bits = some (.error e, q) → e.isSoft = false) ∧
    (∀ vals q, seqLoop f h part bits = some (.ok vals, q) →
      parse (f + 1) h (.sequence part nm) bits
        = some (.ok (some [⟨.sequence part nm, nm, .list vals⟩]), q)) ∧
    (∀ e q, parse f h part bits = some (.error e, q) → e.isSoft = true →
      seqLoop (f + 1) h part bits = some (.ok [], q)) := by
  refine ⟨fun e q hq => seqLoop_no_soft f h part bits e q hq, ?_, ?_⟩
  · intro vals q hq; simp [parse, hq]
  · intro e q hp hs; simp [seqLoop, hp, hs]

/-- Witness for C8's amended claim: `Sequence(Name("n"))` on
`["a", "b"]` collects both tokens into one list-valued capture and stops
at the queue-exhausted soft failure. -/
theorem sequence_no_own_failure_w :
    parse 5 demoHost (.sequence (.name (some "n")) (some "vals")) ["a", "b"]
      = some (.ok (some [⟨.sequence (.name (some "n")) (some "vals"), some "vals",
          .list [.raw "a", .raw "b"]⟩]), []) ∧
    seqLoop 2 demoHost (.name (some "n")) [] = some (.ok [], []) :=
  ⟨(sequence_no_own_failure 4 demoHost (.name (some "n")) (some "vals")
      ["a", "b"]).2.1 [.raw "a", .raw "b"] [] (by rfl),
   (sequence_no_own_failure 1 demoHost (.name (some "n")) (some "vals") []).2.2
      .indexError [] (by rfl) (by rfl)⟩

/-- C9: when tokens remain on the queue after every top-level grammar
node has run, the tag compiler fails with a usage error whose message
contains the synthesized usage string: the syntax fragments of every
top-level element joined by spaces and wrapped between the tag-open and
tag-close delimiters with the tag's name. -/
theorem leftover_usage_error (f : Nat) (h : Host) (parts : List Node)
    (tagName : String) (bits : Queue) (pieces : List Capture)
    (b : String) (rest : Queue)
    (hrun : parseList f h parts bits = some (.ok pieces, b :: rest)) :
    tagCall f h parts (tagName :: bits)
      = some (.error (.tse (some (usageMsg tagName parts)))) ∧
    usageMsg tagName parts
      = (tagName ++ " has the following syntax: ") ++ usageCore tagName parts := by
  exact ⟨by simp [tagCall, hrun], rfl⟩

/-- Witness for C9: the grammar `[Constant("x")]` given the tokens
`["x", "y"]` fails with the message containing the synthesized usage
string for the tag named `tag`. -/
theorem leftover_usage_error_w :
    tagCall 2 demoHost [.constant "x"] ["tag", "x", "y"]
      = some (.error (.tse (some
          "tag has the following syntax: \x7b% tag x %\x7d"))) ∧
    usageMsg "tag" [.constant "x"]
      = ("tag" ++ " has the following syntax: ") ++ usageCore "tag" [.constant "x"] :=
  leftover_usage_error 2 demoHost [.constant "x"] "tag" ["x", "y"] [] "y" []
    (by rfl)

/-- C10: when `Model.parse` pops a front token that does not split into
exactly two pieces on the separator, it raises a `ValueError`, which is
not among the error classes `Optional.parse` and `Sequence.parse` catch
as soft failures, so the error escapes from inside an `Optional` and from
inside a `Sequence` repeat loop, and aborts the whole tag compilation. -/
theorem model_bad_split_escapes (f : Nat) (h : Host) (nm nm2 : Option String)
    (b t : String) (rest : Queue) (hlen : (splitDot b).length ≠ 2) :
    parse (f + 1) h (.model nm) (b :: rest) = some (.error .valueError, rest) ∧
    PError.valueError.isSoft = false ∧
    parse (f + 3) h (.optional [.model nm]) (b :: rest)
      = some (.error .valueError, b :: rest) ∧
    parse (f + 3) h (.sequence (.model nm) nm2) (b :: rest)
      = some (.error .valueError, rest) ∧
    tagCall (f + 2) h [.model nm] (t :: b :: rest) = some (.error .valueError) := by
  have hp : parse (f + 1) h (.model nm) (b :: rest)
      = some (.error .valueError, rest) := by
    rcases hsp : splitDot b with _ | ⟨x, tl⟩
    · simp [parse, hsp]
    · rcases tl with _ | ⟨y, tl2⟩
      · simp [parse, hsp]
      · rcases tl2 with _ | ⟨z, tl3⟩
        · exact absurd (by rw [hsp]; rfl) hlen
        · simp [parse, hsp]
  have hpl : parseList (f + 2) h [.model nm] (b :: rest)
      = some (.error .valueError, rest) := by
    simp [parseList, hp]
  refine ⟨hp, rfl, ?_, ?_, ?_⟩
  · simp [parse, hpl, PError.isSoft]
  · have hsl : seqLoop (f + 2) h (.model nm) (b :: rest)
        = some (.error .valueError, rest) := by
      simp [seqLoop, hp, PError.isSoft]
    simp [parse, hsl]
  · simp [tagCall, hpl]

/-- Witness for C10: the token `nodot` has no separator, so the
`ValueError` escapes `Optional`, escapes `Sequence`, and aborts the tag
compilation. -/
theorem model_bad_split_escapes_w :
    parse 1 demoHost (.model none) ["nodot"] = some (.error .valueError, []) ∧
    PError.valueError.isSoft = false ∧
    parse 3 demoHost (.optional [.model none]) ["nodot"]
      = some (.error .valueError, ["nodot"]) ∧
    parse 3 demoHost (.sequence (.model none) none) ["nodot"]
      = some (.error .valueError, []) ∧
    tagCall 2 demoHost [.model none] ["t", "nodot"] = some (.error .valueError) :=
  model_bad_split_escapes 0 demoHost none none "nodot" "t" [] (by decide)

/-- Counterexample for C1: a failure partway through a `Choice` branch
does not restore the queue: on `["k", "y"]` the keyword `k` is consumed,
the branch's `Constant("x")` then fails, and the raised error leaves the
queue at `["y"]`, different from the queue `["k", "y"]` at the start of
the match attempt. -/
theorem choice_branch_consumes_cex :
    parse 3 demoHost (.choice [("k", [.constant "x"])] none) ["k", "y"]
      = some (.error (.tse (some "x expected, y found")), ["y"]) ∧
    (["y"] : Queue) ≠ ["k", "y"] :=
  ⟨rfl, by decide⟩

/-- C1 amended: a failed match restores the queue for `Constant` and
`Name` always, for `Variable` and `Model` when they fail on an empty
queue, for `Optional` whenever it propagates an error, and for `Choice`
when the failure is at keyword dispatch (empty queue or undeclared front
token); a failure partway through a committed `Choice` branch, or after
`Variable`'s or `Model`'s eager pop, instead leaves the queue advanced. -/
theorem failed_match_frame (f : Nat) (h : Host) (bits q : Queue) (e : PError) :
    (∀ t, parse f h (.constant t) bits = some (.error e, q) →
      parse f h (.constant t) bits = some (.error e, bits)) ∧
    (∀ nm, parse f h (.name nm) bits = some (.error e, q) →
      parse f h (.name nm) bits = some (.error e, bits)) ∧
    (∀ nm, parse f h (.var nm) [] = some (.error e, q) →
      parse f h (.var nm) [] = some (.error e, [])) ∧
    (∀ nm, parse f h (.model nm) [] = some (.error e, q) →
      parse f h (.model nm) [] = some (.error e, [])) ∧
    (∀ ps, parse f h (.optional ps) bits = some (.error e, q) →
      parse f h (.optional ps) bits = some (.error e, bits)) ∧
    (∀ m nm b rest, bits = b :: rest → lookupA b m = none →
      parse f h (.choice m nm) bits = some (.error e, q) →
      parse f h (.choice m nm) bits = some (.error e, bits)) ∧
    (∀ m nm, parse f h (.choice m nm) [] = some (.error e, q) →
      parse f h (.choice m nm) [] = some (.error e, [])) := by
  cases f with
  | zero =>
    refine ⟨?_, ?_, ?_, ?_, ?_, ?_, ?_⟩ <;> intros <;> simp_all [parse]
  | succ f =>
    refine ⟨?_, ?_, ?_, ?_, ?_, ?_, ?_⟩
    · intro t hq
      suffices hqb : q = bits by rw [hqb] at hq; exact hq
      cases bits with
      | nil =>
        simp only [parse, Option.some.injEq, Prod.mk.injEq] at hq
        exact hq.2.symm
      | cons b rest =>
        simp only [parse] at hq
        split at hq
        · exact absurd hq (by simp)
        · simp only [Option.some.injEq, Prod.mk.injEq] at hq
          exact hq.2.symm
    · intro nm hq
      suffices hqb : q = bits by rw [hqb] at hq; exact hq
      cases bits with
      | nil =>
        simp only [parse, Option.some.injEq, Prod.mk.injEq] at hq
        exact hq.2.symm
      | cons b rest => exact absurd hq (by simp [parse])
    · intro nm hq
      suffices hqb : q = [] by rw [hqb] at hq; exact hq
      simp only [parse, Option.some.injEq, Prod.mk.injEq] at hq
      exact hq.2.symm
    · intro nm hq
      suffices hqb : q = [] by rw [hqb] at hq; exact hq
      simp only [parse, Option.some.injEq, Prod.mk.injEq] at hq
      exact hq.2.symm
    · intro ps hq
      suffices hqb : q = bits by rw [hqb] at hq; exact hq
      simp only [parse] at hq
      split at hq
      · exact absurd hq (by simp)
      case h_2 e1 q1 hl =>
        split at hq
        · exact absurd hq (by simp)
        · simp only [Option.some.injEq, Prod.mk.injEq] at hq
          exact hq.2.symm
      case h_3 caps q1 hl => exact absurd hq (by simp)
    · intro m nm b rest hbits hlk hq
      subst hbits
      suffices hqb : q = b :: rest by rw [hqb] at hq; exact hq
      simp only [parse, hlk, Option.some.injEq, Prod.mk.injEq] at hq
      exact hq.2.symm
    · intro m nm hq
      suffices hqb : q = [] by rw [hqb] at hq; exact hq
      simp only [parse, Option.some.injEq, Prod.mk.injEq] at hq
      exact hq.2.symm

/-- Witness for C1's amended claim: a failing `Constant` and an unknown
`Choice` keyword both leave the queue exactly as it was. -/
theorem failed_match_frame_w :
    parse 1 demoHost (.constant "x") ["y"]
      = some (.error (.tse (some "x expected, y found")), ["y"]) ∧
    parse 1 demoHost (.choice [("k", [])] none) ["z"]
      = some (.error (.tse (some "[k] expected, z found")), ["z"]) :=
  ⟨(failed_match_frame 1 demoHost ["y"] ["y"]
      (.tse (some "x expected, y found"))).1 "x" (by rfl),
   (failed_match_frame 1 demoHost ["z"] ["z"]
      (.tse (some "[k] expected, z found"))).2.2.2.2.2.1 [("k", [])] none "z" []
      rfl (by rfl) (by rfl)⟩

/-- The match of a node on a queue runs forever: no amount of fuel
finishes the computation. -/
def diverges (h : Host) (n : Node) (bits : Queue) : Prop :=
  ∀ f, parse f h n bits = none

/-- Counterexample for C2: `Sequence` wrapped around a zero-width
always-succeeding element — an `Optional` whose sub-sequence always
fails — loops forever on the empty queue: the repeat loop sees `None`
on every iteration, consumes nothing, and never stops. -/
theorem seq_zero_width_diverges_cex :
    diverges demoHost (.sequence (.optional [.constant "x"]) none) [] := by
  have hopt : ∀ g, parse g demoHost (.optional [.constant "x"]) [] = none ∨
      parse g demoHost (.optional [.constant "x"]) [] = some (.ok none, []) := by
    intro g
    match g with
    | 0 => exact Or.inl rfl
    | 1 => exact Or.inl rfl
    | 2 => exact Or.inl rfl
    | g + 3 => exact Or.inr rfl
  have hseq : ∀ g, seqLoop g demoHost (.optional [.constant "x"]) [] = none := by
    intro g
    induction g with
    | zero => rfl
    | succ g ih =>
      rcases hopt g with hg | hg
      · simp [seqLoop, hg]
      · simp [seqLoop, hg, ih]
  intro f
  match f with
  | 0 => rfl
  | f + 1 => simp [parse, hseq f]

/-- C2 amended: every match attempt moves the queue along suffixes, so
`Sequence`'s consumption is monotonically non-increasing; and its repeat
loop terminates whenever the wrapped element always finishes and consumes
at least one token on every success — the zero-width always-succeeding
case excluded by the counterexample is exactly the one where it loops. -/
theorem sequence_termination (h : Host) (part : Node) (nm : Option String)
    (F0 : Nat)
    (Htot : ∀ bits g, F0 ≤ g → parse g h part bits ≠ none)
    (Hcons : ∀ g bits v q, parse g h part bits = some (.ok v, q) →
      q.length < bits.length) :
    (∀ g bits r q, seqLoop g h part bits = some (r, q) → q <:+ bits) ∧
    (∀ g bits r q, parse g h (.sequence part nm) bits = some (r, q) →
      q.length ≤ bits.length) ∧
    (∀ bits, parse (F0 + bits.length + 2) h (.sequence part nm) bits ≠ none) := by
  refine ⟨fun g bits r q hq => seqLoop_suffix hq,
    fun g bits r q hq => (parse_suffix hq).length_le, ?_⟩
  have hloop : ∀ g bits, bits.length + F0 < g →
      seqLoop g h part bits ≠ none := by
    intro g
    induction g with
    | zero => intro bits hlt; omega
    | succ g ih =>
      intro bits hlt
      have hg : F0 ≤ g := by omega
      rcases hres : parse g h part bits with _ | ⟨r1, q⟩
      · exact absurd hres (Htot bits g hg)
      · rcases r1 with e | v
        · simp only [seqLoop, hres]
          split <;> simp
        · have hql : q.length < bits.length := Hcons g bits v q hres
          simp only [seqLoop, hres]
          rcases hsl : seqLoop g h part q with _ | ⟨e2 | vals, q2⟩
          · exact absurd hsl (ih q (by omega))
          · simp
          · simp
  intro bits
  simp only [parse]
  rcases hsl : seqLoop (F0 + bits.length + 1) h part bits with _ | ⟨e | vals, q⟩
  · exact absurd hsl (hloop _ bits (by omega))
  · simp
  · simp

/-- Witness for C2's amended claim: `Sequence(Constant("x"))`, whose
wrapped element finishes in one step and consumes a token on every
success, terminates on the queue `["x"]`. -/
theorem sequence_termination_w :
    parse 4 demoHost (.sequence (.constant "x") none) ["x"] ≠ none :=
  (sequence_termination demoHost (.constant "x") none 1
    (const_total "x" demoHost) (const_consumes "x" demoHost)).2.2 ["x"]

/-- C3: an `EntityRef`/`Model` match consumes one token and splits it on
the separator into a two-part key; when the referenced entity is not
registered, the registry's lookup error surfaces to the caller, the tag
compilation aborts and no executable node is produced; only for a
registered entity does the match return one capture holding the resolved
entity object. -/
theorem model_lookup (f : Nat) (h : Host) (nm : Option String) (b t : String)
    (rest : Queue) (app mdl : String) (hsplit : splitDot b = [app, mdl]) :
    (∀ e, h.get_model app mdl = Except.error e →
      parse (f + 1) h (.model nm) (b :: rest) = some (.error e, rest) ∧
      tagCall (f + 2) h [.model nm] (t :: b :: rest) = some (.error e)) ∧
    (∀ ent, h.get_model app mdl = Except.ok ent →
      parse (f + 1) h (.model nm) (b :: rest)
        = some (.ok (some [⟨.model nm, nm, .entity ent⟩]), rest)) := by
  constructor
  · intro e hg
    have hp : parse (f + 1) h (.model nm) (b :: rest) = some (.error e, rest) := by
      simp [parse, hsplit, hg]
    exact ⟨hp, by simp [tagCall, parseList, hp]⟩
  · intro ent hg
    simp [parse, hsplit, hg]

/-- Witness for C3: the unregistered reference `app.Missing` raises the
lookup error and aborts the compilation with no node produced, while the
registered `app.Page` yields one entity capture. -/
theorem model_lookup_w :
    (parse 1 demoHost (.model none) ["app.Missing"]
        = some (.error .lookupError, []) ∧
      tagCall 2 demoHost [.model none] ["t", "app.Missing"]
        = some (.error .lookupError)) ∧
    parse 1 demoHost (.model none) ["app.Page"]
      = some (.ok (some [⟨.model none, none, .entity "app.Page"⟩]), []) :=
  ⟨(model_lookup 0 demoHost none "app.Missing" "t" [] "app" "Missing"
      (by decide)).1 .lookupError (by rfl),
   (model_lookup 0 demoHost none "app.Page" "t" [] "app" "Page"
      (by decide)).2 "app.Page" (by rfl)⟩

end Sugar
